import Mathlib

/-!
# Verification of the devrel-blog-utils frontmatter engine

Shallow embedding of the repository's frontmatter utilities:

* `MarkdownFrontmatterExtractor` (src/utils/markdown-frontmatter-extractor.ts):
  `extract`, `parseFrontmatter`, `filterFields`.
* `MarkdownFrontmatterUpdater` (src/utils/markdown-frontmatter-updater.ts):
  `updateFrontmatter`, `updateFields`, `removeFields`, `getCurrentFrontmatter`,
  `updateFrontmatterInContent`, `extractExistingFrontmatter`.
* `GenerativeTags` (src/utils/generative-tags.ts): `processGlobPattern`,
  `matchesGlob`.

Representation choices:

* A markdown document is modelled as its list of lines (`List String`,
  newline-separated text).  The external markdown codec
  (micromark-extension-frontmatter / mdast-util-frontmatter /
  mdast-util-to-markdown) is modelled by its contract as stated in the
  repository's design documents: a document whose very first line is the
  fence `---` and which has a later closing `---` line carries a leading
  YAML metadata block holding the lines strictly between the fences;
  everything after the closing fence is content and is carried through
  serialization verbatim.
* YAML values are the closed recursive union `Yaml`
  (string / integer number / boolean / null / sequence / mapping); mappings
  are key-ordered association lists, matching JavaScript object insertion
  order.  YAML numbers are modelled as integers (every numeric value the
  claims mention is an integer).
* The external `yaml` library's `parse` is a black box and enters the
  definitions as an explicit function parameter
  `parse : List String → Except String Yaml` (`.error` = malformed YAML,
  i.e. the library throwing); its `stringify` is modelled by the encoding
  contract (block style, plain scalars, 2-space indent).
* JavaScript exceptions become `Except`; a thrown error aborts the
  operation before any file write, which is made explicit by operations
  returning the would-be new file content only in the `.ok` case.
-/

/-- YAML value: the closed recursive tagged union of the metadata model.
Mappings are key-ordered association lists (JavaScript object insertion
order); numbers are modelled as integers. -/
inductive Yaml where
  | null : Yaml
  | bool (b : Bool) : Yaml
  | num (n : Int) : Yaml
  | str (s : String) : Yaml
  | seq (xs : List Yaml) : Yaml
  | map (entries : List (String × Yaml)) : Yaml

/-- JavaScript truthiness of a YAML value, as used by the source's
`parseYaml(node.value) || {}` fallback: `null`, `false`, the number `0` and
the empty string are falsy; every object (mapping or sequence) is truthy.
(NaN does not arise: numbers are modelled as integers.) -/
def jsTruthy : Yaml → Bool
  | Yaml.null => false
  | Yaml.bool b => b
  | Yaml.num n => n != 0
  | Yaml.str s => !s.isEmpty
  | Yaml.seq _ => true
  | Yaml.map _ => true

/-- Property read `m[k]` on a JavaScript object modelled as an ordered
association list: the value at the (first) entry whose key is `k`. -/
def lookupKey : List (String × Yaml) → String → Option Yaml
  | [], _ => none
  | (k', v) :: rest, k => if k' = k then some v else lookupKey rest k

/-- Property write `m[k] = v` on a JavaScript object: replaces the value at
an existing entry for `k` in place (keeping its position), or appends a new
entry at the end. -/
def objSet : List (String × Yaml) → String → Yaml → List (String × Yaml)
  | [], k, v => [(k, v)]
  | (k', v') :: rest, k, v =>
    if k' = k then (k, v) :: rest else (k', v') :: objSet rest k v

/-- Object spread-merge `{...m, ...p}`: starting from the entries of `m`,
assign every entry of `p` in order (existing keys overwritten in place, new
keys appended) — the source's merge in `updateFields`. -/
def spreadMerge (m p : List (String × Yaml)) : List (String × Yaml) :=
  p.foldl (fun acc kv => objSet acc kv.1 kv.2) m

/-- Property delete `delete m[k]`: drops the entry for `k` (no effect when
the key is absent).  JavaScript objects hold at most one entry per key;
recursing over the whole list removes exactly that entry. -/
def objDelete : List (String × Yaml) → String → List (String × Yaml)
  | [], _ => []
  | (k', v) :: rest, k =>
    if k' = k then objDelete rest k else (k', v) :: objDelete rest k

/-- The delete loop of the source's `removeFields`: `delete m[k]` for each
`k` in `ks`, in order. -/
def removeKeys (m : List (String × Yaml)) (ks : List String) : List (String × Yaml) :=
  ks.foldl (fun acc k => objDelete acc k) m

/-- The entries an object spread `{...x}` contributes, for the values that
can reach the updater's merge (`null` from "no frontmatter", or a decoded
YAML value).  A mapping contributes its own entries; `null` and other
non-mapping values contribute no string-keyed entries.  (Spreading a string
or an array in JavaScript would contribute numeric-index keys; no metadata
key is a numeric index in any behaviour the claims describe, so those
entries are not modelled.) -/
def jsSpreadObj : Option Yaml → List (String × Yaml)
  | some (Yaml.map m) => m
  | _ => []

/-! ## The document codec

Model of the external markdown frontmatter codec, restricted to the
structure the repository uses: a leading `---` line together with a later
closing `---` line delimits the YAML metadata block; the `yaml` AST node's
`value` is the text strictly between the fences; all lines after the
closing fence are content.  A document not starting with `---`, or with no
closing fence, has no metadata block and is all content. -/

/-- Decode a document (as its list of lines) into its optional leading
metadata block (the lines strictly between the fences) and its content (the
lines after the closing fence; the whole document when there is no
metadata block). -/
def splitFrontmatter : List String → Option (List String) × List String
  | [] => (none, [])
  | l :: rest =>
    if l = "---" then
      match rest.findIdx? (· = "---") with
      | some i => (some (rest.take i), rest.drop (i + 1))
      | none => (none, l :: rest)
    else (none, l :: rest)

theorem splitFrontmatter_none_snd (ls : List String)
    (h : (splitFrontmatter ls).1 = none) : (splitFrontmatter ls).2 = ls := by
  match ls with
  | [] => rfl
  | l :: rest =>
    by_cases hl : l = "---"
    · subst hl
      simp only [splitFrontmatter, if_pos rfl] at h ⊢
      cases hidx : rest.findIdx? (· = "---") with
      | some i => simp [hidx] at h
      | none => simp [hidx]
    · simp [splitFrontmatter, hl] at h ⊢

/-! ## Extractor (`MarkdownFrontmatterExtractor`) -/

/-- Errors thrown by the frontmatter operations (the source wraps every
underlying failure in a generic `Error` whose message identifies it; the
distinct messages are modelled as distinct constructors). -/
inductive FmErr where
  /-- the `yaml` library threw while parsing the metadata block -/
  | parseError : FmErr
  /-- `'No frontmatter found and createIfMissing is false'` -/
  | noFrontmatter : FmErr
  /-- a non-object value where an object was required (JavaScript
  `TypeError`, e.g. `field in <primitive>`) -/
  | typeError : FmErr
deriving DecidableEq

/-- `parseFrontmatter` of the extractor (the updater's private
`extractExistingFrontmatter` is the identical traversal): find the leading
`yaml` node; if present return `parseYaml(node.value) || {}` (the
JavaScript `||` replaces a falsy parse result by the empty mapping);
otherwise return `null` (here `none`).  `parse` is the external `yaml`
library. -/
def parseFrontmatter (parse : List String → Except String Yaml)
    (ls : List String) : Except FmErr (Option Yaml) :=
  match (splitFrontmatter ls).1 with
  | some fmText =>
    match parse fmText with
    | Except.ok v => Except.ok (some (if jsTruthy v then v else Yaml.map []))
    | Except.error _ => Except.error FmErr.parseError
  | none => Except.ok none

/-- One iteration of the extractor's `filterFields` loop:
`if (field in data) filtered[field] = data[field]`. -/
def filterStep (data acc : List (String × Yaml)) (f : String) :
    List (String × Yaml) :=
  match lookupKey data f with
  | some v => objSet acc f v
  | none => acc

/-- `filterFields` of the extractor: `for (field of fields) if (field in
data) filtered[field] = data[field]` over a fresh empty object. -/
def filterFields (data : List (String × Yaml)) (fields : List String) :
    List (String × Yaml) :=
  fields.foldl (filterStep data) []

/-- Projection step of `extract` when a field list is configured.  `data`
is the decoded frontmatter; the claims only exercise the mapping case.  (On
a primitive the source's `field in data` would throw a `TypeError`; on an
array it tests numeric-index keys, which no metadata field name is, so
nothing is kept.) -/
def projectFields (data : Yaml) (fields : List String) : Except FmErr Yaml :=
  match data with
  | Yaml.map m => Except.ok (Yaml.map (filterFields m fields))
  | Yaml.seq _ => Except.ok (Yaml.map [])
  | _ => Except.error FmErr.typeError

/-- `extract` of the extractor: decode the document's frontmatter; `null`
(here `none`) when there is no metadata block; otherwise the full decoded
mapping, projected onto `options.fields` when that list is present and
non-empty. -/
def extract (parse : List String → Except String Yaml) (ls : List String)
    (fields : Option (List String)) : Except FmErr (Option Yaml) :=
  match parseFrontmatter parse ls with
  | Except.error e => Except.error e
  | Except.ok none => Except.ok none
  | Except.ok (some fm) =>
    match fields with
    | some fs =>
      if fs.isEmpty then Except.ok (some fm)
      else
        match projectFields fm fs with
        | Except.ok v => Except.ok (some v)
        | Except.error e => Except.error e
    | none => Except.ok (some fm)

/-! ## YAML encoding (`stringifyYaml` with `lineWidth: -1`,
`defaultStringType: 'PLAIN'`)

Model of the external `yaml` library's `stringify` by its contract in the
repository's design: block style, plain (unquoted) scalars, sequences and
nested mappings as dash-prefixed / key-value lines 2-space indented under
their key, no line wrapping.  The source trims the result before storing it
as the metadata node's text, so the output below is exactly the list of
lines of the block (no surrounding blank lines). -/

/-- `n` spaces of indentation. -/
def indentStr (n : Nat) : String := String.mk (List.replicate n ' ')

/-- Plain-style text of a scalar YAML value (the sequence/mapping cases are
the empty flow collections, used when a collection has no elements). -/
def scalarText : Yaml → String
  | Yaml.null => "null"
  | Yaml.bool b => if b then "true" else "false"
  | Yaml.num n => toString n
  | Yaml.str s => s
  | Yaml.seq _ => "[]"
  | Yaml.map _ => "{}"

mutual

/-- Lines of a mapping's entries at the given indentation. -/
def yamlEntries (ind : Nat) : List (String × Yaml) → List String
  | [] => []
  | (k, v) :: rest => yamlEntry ind k v ++ yamlEntries ind rest

/-- Lines of one `key: value` entry at the given indentation. -/
def yamlEntry (ind : Nat) (k : String) : Yaml → List String
  | Yaml.seq [] => [indentStr ind ++ k ++ ": []"]
  | Yaml.seq (x :: xs) =>
    (indentStr ind ++ k ++ ":") :: yamlItems (ind + 2) (x :: xs)
  | Yaml.map [] => [indentStr ind ++ k ++ ": {}"]
  | Yaml.map (e :: es) =>
    (indentStr ind ++ k ++ ":") :: yamlEntries (ind + 2) (e :: es)
  | v => [indentStr ind ++ k ++ ": " ++ scalarText v]

/-- Lines of a sequence's items at the given indentation. -/
def yamlItems (ind : Nat) : List Yaml → List String
  | [] => []
  | v :: rest => yamlItem ind v ++ yamlItems ind rest

/-- Lines of one dash-prefixed sequence item at the given indentation. -/
def yamlItem (ind : Nat) : Yaml → List String
  | Yaml.seq [] => [indentStr ind ++ "- []"]
  | Yaml.seq (x :: xs) => (indentStr ind ++ "-") :: yamlItems (ind + 2) (x :: xs)
  | Yaml.map [] => [indentStr ind ++ "- {}"]
  | Yaml.map (e :: es) => (indentStr ind ++ "-") :: yamlEntries (ind + 2) (e :: es)
  | v => [indentStr ind ++ "- " ++ scalarText v]

end

/-- `stringifyYaml(mapping).trim()` as a list of lines: the serialized
metadata block that the updater stores into the `yaml` node. -/
def stringifyLines (m : List (String × Yaml)) : List String :=
  yamlEntries 0 m

/-! ## Updater (`MarkdownFrontmatterUpdater`)

All operations are read-modify-write on the file: read the full text,
transform, write the full text back.  They are modelled as functions from
the file's content (list of lines) to the new content; a thrown error
(`.error`) happens before the write call is reached, so on the error path
no new content exists. -/

/-- `updateFrontmatterInContent` of the updater: parse the document; if a
`yaml` node exists, replace its text with the serialization of
`newFrontmatter`; otherwise, when `createIfMissing` is set, insert a fresh
metadata block at the start of the document; otherwise throw
`'No frontmatter found and createIfMissing is false'`.  Serialization
re-emits the fences around the (new) metadata text followed by the content
lines unchanged. -/
def updateFrontmatterInContent (ls : List String)
    (newFrontmatter : List (String × Yaml)) (createIfMissing : Bool) :
    Except FmErr (List String) :=
  match splitFrontmatter ls with
  | (some _, content) =>
    Except.ok ("---" :: (stringifyLines newFrontmatter ++ "---" :: content))
  | (none, content) =>
    if createIfMissing then
      Except.ok ("---" :: (stringifyLines newFrontmatter ++ "---" :: content))
    else Except.error FmErr.noFrontmatter

/-- `updateFrontmatter(updates)`: full replacement of the metadata mapping —
read the file, run `updateFrontmatterInContent`, write the result back. -/
def updateFrontmatter (ls : List String) (updates : List (String × Yaml))
    (createIfMissing : Bool) : Except FmErr (List String) :=
  updateFrontmatterInContent ls updates createIfMissing

/-- `extractExistingFrontmatter` of the updater — textually the same
traversal as the extractor's `parseFrontmatter` (find the `yaml` node,
`parseYaml(node.value) || {}`, `null` when absent). -/
def extractExistingFrontmatter (parse : List String → Except String Yaml)
    (ls : List String) : Except FmErr (Option Yaml) :=
  parseFrontmatter parse ls

/-- `updateFields(fieldUpdates)`: read the existing metadata mapping, merge
`{...existingFrontmatter, ...fieldUpdates}`, then full-replace via
`updateFrontmatterInContent`. -/
def updateFields (parse : List String → Except String Yaml) (ls : List String)
    (fieldUpdates : List (String × Yaml)) (createIfMissing : Bool) :
    Except FmErr (List String) :=
  match extractExistingFrontmatter parse ls with
  | Except.error e => Except.error e
  | Except.ok existing =>
    updateFrontmatterInContent ls
      (spreadMerge (jsSpreadObj existing) fieldUpdates) createIfMissing

/-- `removeFields(fieldsToRemove)`: read the existing metadata mapping; if
there is none, return without writing (`.ok none`); otherwise delete each
named field and write the reduced mapping back (`.ok (some newContent)`). -/
def removeFields (parse : List String → Except String Yaml) (ls : List String)
    (fieldsToRemove : List String) (createIfMissing : Bool) :
    Except FmErr (Option (List String)) :=
  match extractExistingFrontmatter parse ls with
  | Except.error e => Except.error e
  | Except.ok none => Except.ok none
  | Except.ok (some existing) =>
    match updateFrontmatterInContent ls
        (removeKeys (jsSpreadObj (some existing)) fieldsToRemove)
        createIfMissing with
    | Except.ok out => Except.ok (some out)
    | Except.error e => Except.error e

/-- `getCurrentFrontmatter()`: read-only fetch of the current metadata
mapping, never writes. -/
def getCurrentFrontmatter (parse : List String → Except String Yaml)
    (ls : List String) : Except FmErr (Option Yaml) :=
  extractExistingFrontmatter parse ls

/-- The file's content after `updateFrontmatter` runs: the new content on
success; on a thrown error the write call is never reached, so the file
keeps its previous content. -/
def fileAfterUpdateFrontmatter (ls : List String)
    (updates : List (String × Yaml)) (createIfMissing : Bool) : List String :=
  match updateFrontmatter ls updates createIfMissing with
  | Except.ok out => out
  | Except.error _ => ls

/-- The file's content after `updateFields` runs: the new content on
success; on a thrown error the write call is never reached, so the file
keeps its previous content. -/
def fileAfterUpdateFields (parse : List String → Except String Yaml)
    (ls : List String) (fieldUpdates : List (String × Yaml))
    (createIfMissing : Bool) : List String :=
  match updateFields parse ls fieldUpdates createIfMissing with
  | Except.ok out => out
  | Except.error _ => ls

/-! ## Batch orchestration (`GenerativeTags.processGlobPattern`)

Per-file processing (`processSingleFile`, which extracts, calls the AI
client and updates the file) is a black box here and enters as the
function parameter `proc`; its result is `.ok ()` on success or `.error e`
when processing that file threw. -/

/-- The `for (const file of files)` loop of `processGlobPattern`: each file
is processed with its own `try`/`catch`; a failure is logged (recorded in
the outcome list) and the loop continues with the remaining files. -/
def runBatch {α ε : Type} (proc : α → Except ε Unit) :
    List α → List (α × Except ε Unit)
  | [] => []
  | f :: fs =>
    match proc f with
    | Except.ok () => (f, Except.ok ()) :: runBatch proc fs
    | Except.error e => (f, Except.error e) :: runBatch proc fs

/-- `processGlobPattern`: enumerate the matched files; when there are none,
report and return without error; otherwise run the per-file loop.  The
returned list records, per file and in order, the outcome of attempting
that file. -/
def processGlobPattern {α ε : Type} (proc : α → Except ε Unit)
    (files : List α) : Except ε (List (α × Except ε Unit)) :=
  if files.isEmpty then Except.ok []
  else Except.ok (runBatch proc files)

/-! ## Lookup laws for the object operations -/

theorem lookupKey_objSet_self (m : List (String × Yaml)) (k : String) (v : Yaml) :
    lookupKey (objSet m k v) k = some v := by
  induction m with
  | nil => simp [objSet, lookupKey]
  | cons kv rest ih =>
    obtain ⟨k', v'⟩ := kv
    by_cases h : k' = k
    · subst h; simp [objSet, lookupKey]
    · simp [objSet, lookupKey, h, ih]

theorem lookupKey_objSet_ne (m : List (String × Yaml)) (j k : String) (v : Yaml)
    (h : j ≠ k) : lookupKey (objSet m j v) k = lookupKey m k := by
  induction m with
  | nil => simp [objSet, lookupKey, h]
  | cons kv rest ih =>
    obtain ⟨k', v'⟩ := kv
    by_cases h' : k' = j
    · subst h'; simp [objSet, lookupKey, h]
    · simp [objSet, lookupKey, h', ih]

theorem lookupKey_spreadMerge_of_none (m p : List (String × Yaml)) (k : String)
    (h : lookupKey p k = none) :
    lookupKey (spreadMerge m p) k = lookupKey m k := by
  induction p generalizing m with
  | nil => simp [spreadMerge]
  | cons kv p' ih =>
    obtain ⟨k0, v0⟩ := kv
    have hk0 : k0 ≠ k := by
      intro hEq
      simp [lookupKey, hEq] at h
    have htail : lookupKey p' k = none := by
      simpa [lookupKey, hk0] using h
    show lookupKey (spreadMerge (objSet m k0 v0) p') k = lookupKey m k
    rw [ih (objSet m k0 v0) htail, lookupKey_objSet_ne m k0 k v0 hk0]

theorem mem_keys_of_lookupKey_some (p : List (String × Yaml)) (k : String)
    (v : Yaml) (h : lookupKey p k = some v) : k ∈ p.map Prod.fst := by
  induction p with
  | nil => simp [lookupKey] at h
  | cons kv rest ih =>
    obtain ⟨k', v'⟩ := kv
    by_cases hk : k' = k
    · subst hk; simp
    · simp only [lookupKey, if_neg hk] at h
      simp [ih h]

theorem lookupKey_spreadMerge_of_some (m p : List (String × Yaml)) (k : String)
    (v : Yaml) (hnd : (p.map Prod.fst).Nodup) (h : lookupKey p k = some v) :
    lookupKey (spreadMerge m p) k = some v := by
  induction p generalizing m with
  | nil => simp [lookupKey] at h
  | cons kv p' ih =>
    obtain ⟨k0, v0⟩ := kv
    simp only [List.map_cons, List.nodup_cons] at hnd
    obtain ⟨hk0notin, hnd'⟩ := hnd
    show lookupKey (spreadMerge (objSet m k0 v0) p') k = some v
    by_cases hk0 : k0 = k
    · subst hk0
      have hv : v0 = v := by
        have h' := h
        simp [lookupKey] at h'
        exact h'
      subst hv
      have hnone : lookupKey p' k0 = none := by
        cases hl : lookupKey p' k0 with
        | none => rfl
        | some w => exact absurd (mem_keys_of_lookupKey_some p' k0 w hl) hk0notin
      rw [lookupKey_spreadMerge_of_none (objSet m k0 v0) p' k0 hnone,
        lookupKey_objSet_self]
    · have htail : lookupKey p' k = some v := by
        simpa [lookupKey, hk0] using h
      exact ih (objSet m k0 v0) hnd' htail

theorem lookupKey_objDelete (m : List (String × Yaml)) (j k : String) :
    lookupKey (objDelete m j) k = if k = j then none else lookupKey m k := by
  induction m with
  | nil => simp [objDelete, lookupKey]
  | cons kv rest ih =>
    obtain ⟨k', v⟩ := kv
    by_cases hj : k' = j
    · have hstep : objDelete ((k', v) :: rest) j = objDelete rest j := by
        simp [objDelete, hj]
      rw [hstep, ih]
      by_cases hk : k = j
      · simp [hk]
      · have hk' : ¬k' = k := fun h => hk (h.symm.trans hj)
        simp [lookupKey, hk, hk']
    · have hstep : objDelete ((k', v) :: rest) j = (k', v) :: objDelete rest j := by
        simp [objDelete, hj]
      rw [hstep]
      by_cases hk : k' = k
      · have hkj : ¬k = j := fun h => hj (hk.trans h)
        simp [lookupKey, hk, hkj]
      · simp [lookupKey, hk, ih]

theorem lookupKey_removeKeys (m : List (String × Yaml)) (ks : List String)
    (k : String) :
    lookupKey (removeKeys m ks) k = if k ∈ ks then none else lookupKey m k := by
  induction ks generalizing m with
  | nil => simp [removeKeys]
  | cons j ks' ih =>
    show lookupKey (removeKeys (objDelete m j) ks') k = _
    rw [ih (objDelete m j), lookupKey_objDelete]
    by_cases hmem : k ∈ ks'
    · simp [hmem]
    · by_cases hkj : k = j
      · subst hkj; simp [hmem]
      · simp [hmem, hkj]

theorem lookupKey_filterAux (data : List (String × Yaml)) (fs : List String)
    (acc : List (String × Yaml)) (k : String) :
    lookupKey (fs.foldl (filterStep data) acc) k =
      if k ∈ fs ∧ (lookupKey data k).isSome then lookupKey data k
      else lookupKey acc k := by
  induction fs generalizing acc with
  | nil => simp
  | cons f fs' ih =>
    show lookupKey (fs'.foldl (filterStep data) (filterStep data acc f)) k = _
    rw [ih (filterStep data acc f)]
    by_cases hmem : k ∈ fs' ∧ (lookupKey data k).isSome
    · simp [hmem.1, hmem.2, hmem]
    · rw [if_neg hmem]
      by_cases hfk : f = k
      · subst hfk
        cases hd : lookupKey data f with
        | some v =>
          simp only [filterStep, hd]
          rw [lookupKey_objSet_self]
          simp [hd]
        | none =>
          simp only [filterStep, hd]
          simp [hd, hmem]
      · have hstep : lookupKey (filterStep data acc f) k = lookupKey acc k := by
          unfold filterStep
          cases lookupKey data f with
          | some v => exact lookupKey_objSet_ne acc f k v hfk
          | none => rfl
        rw [hstep]
        have hnotin : ¬(k ∈ f :: fs' ∧ (lookupKey data k).isSome) := by
          rintro ⟨hin, hsome⟩
          rcases List.mem_cons.mp hin with hkf | hks
          · exact hfk hkf.symm
          · exact hmem ⟨hks, hsome⟩
        rw [if_neg hnotin]

theorem lookupKey_filterFields (data : List (String × Yaml)) (fs : List String)
    (k : String) :
    lookupKey (filterFields data fs) k =
      if k ∈ fs then lookupKey data k else none := by
  unfold filterFields
  rw [lookupKey_filterAux]
  by_cases hmem : k ∈ fs
  · cases hd : lookupKey data k with
    | some v => simp [hmem, hd]
    | none => simp [hmem, hd, lookupKey]
  · simp [hmem, lookupKey]

/-! ## Claim theorems -/

/-- C1: for a document with an existing metadata block, `updateFrontmatter`
with any replacement mapping produces the document whose text after the
closing fence is exactly the original content (the lines after the original
closing fence), byte-identical; only the metadata block's text changes. -/
theorem updateFrontmatter_preserves_content
    (ls fmText content : List String) (newFM : List (String × Yaml))
    (createIfMissing : Bool)
    (h : splitFrontmatter ls = (some fmText, content)) :
    updateFrontmatter ls newFM createIfMissing =
      Except.ok ("---" :: (stringifyLines newFM ++ "---" :: content)) := by
  unfold updateFrontmatter updateFrontmatterInContent
  rw [h]

/-- C3: on a document with no leading fence, `updateFrontmatter` with
`createIfMissing = true` produces `---`, the encoded new mapping, a closing
`---`, and then the entire original document verbatim. -/
theorem updateFrontmatter_creates_block_before_original
    (ls : List String) (newFM : List (String × Yaml))
    (h : (splitFrontmatter ls).1 = none) :
    updateFrontmatter ls newFM true =
      Except.ok ("---" :: (stringifyLines newFM ++ "---" :: ls)) := by
  have hls : splitFrontmatter ls = (none, ls) :=
    Prod.ext h (splitFrontmatter_none_snd ls h)
  unfold updateFrontmatter updateFrontmatterInContent
  rw [hls]
  rfl

/-- C4: on a document with no metadata block, both write operations invoked
with `createIfMissing = false` throw the no-frontmatter error before the
write is reached, so the file keeps its previous content (error-path
atomicity). -/
theorem write_ops_fail_atomically_without_frontmatter
    (parse : List String → Except String Yaml) (ls : List String)
    (u p : List (String × Yaml))
    (h : (splitFrontmatter ls).1 = none) :
    updateFrontmatter ls u false = Except.error FmErr.noFrontmatter ∧
    fileAfterUpdateFrontmatter ls u false = ls ∧
    updateFields parse ls p false = Except.error FmErr.noFrontmatter ∧
    fileAfterUpdateFields parse ls p false = ls := by
  have hls : splitFrontmatter ls = (none, ls) :=
    Prod.ext h (splitFrontmatter_none_snd ls h)
  have h1 : updateFrontmatter ls u false = Except.error FmErr.noFrontmatter := by
    unfold updateFrontmatter updateFrontmatterInContent
    rw [hls]
    rfl
  have h3 : updateFields parse ls p false = Except.error FmErr.noFrontmatter := by
    unfold updateFields extractExistingFrontmatter parseFrontmatter
      updateFrontmatterInContent
    rw [hls]
    rfl
  refine ⟨h1, ?_, h3, ?_⟩
  · unfold fileAfterUpdateFrontmatter
    rw [h1]
  · unfold fileAfterUpdateFields
    rw [h3]

/-- C5: on a document whose metadata decodes to the mapping `m`,
`updateFields p` writes back exactly the shallow merge of `p` over `m`:
keys of `p` take `p`'s value (whether previously present or newly added)
and every key of `m` not in `p` keeps its original value. -/
theorem updateFields_is_shallow_merge
    (parse : List String → Except String Yaml) (ls fmText content : List String)
    (m p : List (String × Yaml)) (createIfMissing : Bool)
    (hsplit : splitFrontmatter ls = (some fmText, content))
    (hparse : parse fmText = Except.ok (Yaml.map m))
    (hnd : (p.map Prod.fst).Nodup) :
    updateFields parse ls p createIfMissing =
      Except.ok ("---" :: (stringifyLines (spreadMerge m p) ++ "---" :: content)) ∧
    (∀ k v, lookupKey p k = some v → lookupKey (spreadMerge m p) k = some v) ∧
    (∀ k, lookupKey p k = none → lookupKey (spreadMerge m p) k = lookupKey m k) := by
  refine ⟨?_, ?_, ?_⟩
  · unfold updateFields extractExistingFrontmatter parseFrontmatter
      updateFrontmatterInContent
    rw [hsplit]
    simp [hparse, jsTruthy, jsSpreadObj]
  · intro k v hk
    exact lookupKey_spreadMerge_of_some m p k v hnd hk
  · intro k hk
    exact lookupKey_spreadMerge_of_none m p k hk

/-- C6: `removeFields` is a silent no-op (no error, no write) on a document
with no metadata block; on a document whose metadata decodes to the mapping
`m` it writes back `m` with the named keys deleted — a key not present is
not an error, and every key not named keeps its value. -/
theorem removeFields_semantics
    (parse : List String → Except String Yaml)
    (ls0 ls fmText content : List String) (m : List (String × Yaml))
    (ks : List String) (createIfMissing : Bool)
    (h0 : (splitFrontmatter ls0).1 = none)
    (hsplit : splitFrontmatter ls = (some fmText, content))
    (hparse : parse fmText = Except.ok (Yaml.map m)) :
    removeFields parse ls0 ks createIfMissing = Except.ok none ∧
    removeFields parse ls ks createIfMissing =
      Except.ok (some
        ("---" :: (stringifyLines (removeKeys m ks) ++ "---" :: content))) ∧
    (∀ k, lookupKey (removeKeys m ks) k =
      if k ∈ ks then none else lookupKey m k) := by
  refine ⟨?_, ?_, fun k => lookupKey_removeKeys m ks k⟩
  · unfold removeFields extractExistingFrontmatter parseFrontmatter
    rw [h0]
  · unfold removeFields extractExistingFrontmatter parseFrontmatter
      updateFrontmatterInContent
    rw [hsplit]
    simp [hparse, jsTruthy, jsSpreadObj]

/-- C7: `extract` returns `null` (not `{}`, not an error) on a document
with no leading fence, and returns the decoded mapping itself on a document
whose fence encloses a mapping. -/
theorem extract_none_vs_mapping
    (parse : List String → Except String Yaml)
    (ls0 ls fmText content : List String) (m : List (String × Yaml))
    (fieldsOpt : Option (List String))
    (h0 : (splitFrontmatter ls0).1 = none)
    (hsplit : splitFrontmatter ls = (some fmText, content))
    (hparse : parse fmText = Except.ok (Yaml.map m)) :
    extract parse ls0 fieldsOpt = Except.ok none ∧
    extract parse ls none = Except.ok (some (Yaml.map m)) := by
  constructor
  · unfold extract parseFrontmatter
    rw [h0]
  · unfold extract parseFrontmatter
    rw [hsplit]
    simp [hparse, jsTruthy]

/-- C8: with a non-empty field list `fs`, `extract` on a document whose
metadata decodes to `m` returns exactly the entries of `m` whose key is in
`fs`: requested keys absent from `m` are silently omitted, and the result
is the empty mapping when no requested key exists in `m`. -/
theorem extract_projects_requested_fields
    (parse : List String → Except String Yaml)
    (ls fmText content : List String) (m : List (String × Yaml))
    (fs : List String)
    (hsplit : splitFrontmatter ls = (some fmText, content))
    (hparse : parse fmText = Except.ok (Yaml.map m))
    (hfs : fs ≠ []) :
    extract parse ls (some fs) =
      Except.ok (some (Yaml.map (filterFields m fs))) ∧
    (∀ k, lookupKey (filterFields m fs) k =
      if k ∈ fs then lookupKey m k else none) := by
  constructor
  · unfold extract parseFrontmatter projectFields
    rw [hsplit]
    cases fs with
    | nil => exact absurd rfl hfs
    | cons f fs' => simp [hparse, jsTruthy]
  · exact fun k => lookupKey_filterFields m fs k

/-- C9: batch (glob) mode attempts every matched file in order with its own
`try`/`catch`: the recorded outcome of each file is exactly the result of
processing that file, independent of any other file's failure, and the
batch run itself never fails. -/
theorem processGlobPattern_attempts_every_file {α ε : Type}
    (proc : α → Except ε Unit) (files : List α) :
    processGlobPattern proc files = Except.ok (runBatch proc files) ∧
    runBatch proc files = files.map (fun f => (f, proc f)) := by
  constructor
  · unfold processGlobPattern
    by_cases h : files.isEmpty
    · rw [if_pos h]
      cases files with
      | nil => rfl
      | cons f fs => simp at h
    · rw [if_neg h]
  · induction files with
    | nil => rfl
    | cons f fs ih =>
      cases hp : proc f with
      | ok u =>
        cases u
        simp [runBatch, hp, ih]
      | error e => simp [runBatch, hp, ih]

/-- C10: when the metadata fence encloses YAML that parses to a falsy
non-mapping value (`null`, `false`, `0`, the empty string — in particular
any empty fence, but not only that), both the extractor's `extract` and the
updater's `getCurrentFrontmatter` return the empty mapping, never the
scalar, never `null`, never an error. -/
theorem falsy_frontmatter_reads_as_empty_mapping
    (parse : List String → Except String Yaml)
    (ls fmText content : List String) (v : Yaml)
    (hsplit : splitFrontmatter ls = (some fmText, content))
    (hv : v ∈ [Yaml.null, Yaml.bool false, Yaml.num 0, Yaml.str ""])
    (hparse : parse fmText = Except.ok v) :
    extract parse ls none = Except.ok (some (Yaml.map [])) ∧
    getCurrentFrontmatter parse ls = Except.ok (some (Yaml.map [])) := by
  have hfalsy : jsTruthy v = false := by
    simp only [List.mem_cons, List.not_mem_nil, or_false] at hv
    rcases hv with rfl | rfl | rfl | rfl <;> rfl
  constructor
  · unfold extract parseFrontmatter
    rw [hsplit]
    simp [hparse, hfalsy]
  · unfold getCurrentFrontmatter extractExistingFrontmatter parseFrontmatter
    rw [hsplit]
    simp [hparse, hfalsy]

/-! ## Witnesses -/

theorem updateFrontmatter_preserves_content_witness :
    splitFrontmatter ["---", "title: Old", "---", "Body", "", "More text"] =
      (some ["title: Old"], ["Body", "", "More text"]) ∧
    updateFrontmatter ["---", "title: Old", "---", "Body", "", "More text"]
        [("title", Yaml.str "New")] false =
      Except.ok ("---" :: (stringifyLines [("title", Yaml.str "New")] ++
        "---" :: ["Body", "", "More text"])) :=
  ⟨by rfl,
    updateFrontmatter_preserves_content _ _ _ _ _ (by rfl)⟩

theorem updateFrontmatter_creates_block_witness :
    (splitFrontmatter ["# Hello", "", "World"]).1 = none ∧
    updateFrontmatter ["# Hello", "", "World"] [("title", Yaml.str "New")] true =
      Except.ok ["---", "title: New", "---", "# Hello", "", "World"] := by
  constructor
  · rfl
  · have h := updateFrontmatter_creates_block_before_original
      ["# Hello", "", "World"] [("title", Yaml.str "New")] (by rfl)
    rw [h]
    have hs : stringifyLines [("title", Yaml.str "New")] = ["title: New"] := by
      simp only [stringifyLines, yamlEntries, yamlEntry, indentStr, scalarText]
      decide
    rw [hs]
    rfl

theorem write_ops_fail_atomically_witness :
    (splitFrontmatter ["# Doc", "text"]).1 = none ∧
    (updateFrontmatter ["# Doc", "text"] [("title", Yaml.str "New")] false =
        Except.error FmErr.noFrontmatter ∧
      fileAfterUpdateFrontmatter ["# Doc", "text"] [("title", Yaml.str "New")]
          false = ["# Doc", "text"] ∧
      updateFields (fun _ => Except.ok Yaml.null) ["# Doc", "text"]
          [("a", Yaml.num 1)] false = Except.error FmErr.noFrontmatter ∧
      fileAfterUpdateFields (fun _ => Except.ok Yaml.null) ["# Doc", "text"]
          [("a", Yaml.num 1)] false = ["# Doc", "text"]) :=
  ⟨by rfl,
    write_ops_fail_atomically_without_frontmatter _ _ _ _ (by rfl)⟩

theorem updateFields_is_shallow_merge_witness :
    splitFrontmatter ["---", "title: X", "draft: true", "---", "Body"] =
      (some ["title: X", "draft: true"], ["Body"]) ∧
    (fun _ => Except.ok
        (Yaml.map [("title", Yaml.str "X"), ("draft", Yaml.bool true)]) :
      List String → Except String Yaml) ["title: X", "draft: true"] =
      Except.ok (Yaml.map [("title", Yaml.str "X"), ("draft", Yaml.bool true)]) ∧
    ([(("draft" : String), Yaml.bool false)].map Prod.fst).Nodup ∧
    updateFields
        (fun _ => Except.ok
          (Yaml.map [("title", Yaml.str "X"), ("draft", Yaml.bool true)]))
        ["---", "title: X", "draft: true", "---", "Body"]
        [("draft", Yaml.bool false)] false =
      Except.ok ("---" ::
        (stringifyLines
            (spreadMerge [("title", Yaml.str "X"), ("draft", Yaml.bool true)]
              [("draft", Yaml.bool false)]) ++
          "---" :: ["Body"])) :=
  ⟨by rfl, by rfl, by decide,
    (updateFields_is_shallow_merge _ _ _ _ _ _ false
      (by rfl) (by rfl) (by decide)).1⟩

theorem removeFields_semantics_witness :
    (splitFrontmatter ["Just text"]).1 = none ∧
    splitFrontmatter ["---", "title: X", "draft: true", "---", "Body"] =
      (some ["title: X", "draft: true"], ["Body"]) ∧
    (fun _ => Except.ok
        (Yaml.map [("title", Yaml.str "X"), ("draft", Yaml.bool true)]) :
      List String → Except String Yaml) ["title: X", "draft: true"] =
      Except.ok (Yaml.map [("title", Yaml.str "X"), ("draft", Yaml.bool true)]) ∧
    removeFields
        (fun _ => Except.ok
          (Yaml.map [("title", Yaml.str "X"), ("draft", Yaml.bool true)]))
        ["Just text"] ["draft", "missing"] false = Except.ok none ∧
    removeFields
        (fun _ => Except.ok
          (Yaml.map [("title", Yaml.str "X"), ("draft", Yaml.bool true)]))
        ["---", "title: X", "draft: true", "---", "Body"]
        ["draft", "missing"] false =
      Except.ok (some ("---" ::
        (stringifyLines
            (removeKeys [("title", Yaml.str "X"), ("draft", Yaml.bool true)]
              ["draft", "missing"]) ++
          "---" :: ["Body"]))) := by
  have h := removeFields_semantics
    (fun _ => Except.ok
      (Yaml.map [("title", Yaml.str "X"), ("draft", Yaml.bool true)]))
    ["Just text"] ["---", "title: X", "draft: true", "---", "Body"]
    ["title: X", "draft: true"] ["Body"]
    [("title", Yaml.str "X"), ("draft", Yaml.bool true)]
    ["draft", "missing"] false (by rfl) (by rfl) (by rfl)
  exact ⟨by rfl, by rfl, by rfl, h.1, h.2.1⟩

theorem extract_none_vs_mapping_witness :
    (splitFrontmatter ["# Plain doc", "content"]).1 = none ∧
    splitFrontmatter ["---", "title: T", "---", "Body"] =
      (some ["title: T"], ["Body"]) ∧
    (fun _ => Except.ok (Yaml.map [("title", Yaml.str "T")]) :
      List String → Except String Yaml) ["title: T"] =
      Except.ok (Yaml.map [("title", Yaml.str "T")]) ∧
    extract (fun _ => Except.ok (Yaml.map [("title", Yaml.str "T")]))
        ["# Plain doc", "content"] none = Except.ok none ∧
    extract (fun _ => Except.ok (Yaml.map [("title", Yaml.str "T")]))
        ["---", "title: T", "---", "Body"] none =
      Except.ok (some (Yaml.map [("title", Yaml.str "T")])) := by
  have h := extract_none_vs_mapping
    (fun _ => Except.ok (Yaml.map [("title", Yaml.str "T")]))
    ["# Plain doc", "content"] ["---", "title: T", "---", "Body"]
    ["title: T"] ["Body"] [("title", Yaml.str "T")] none
    (by rfl) (by rfl) (by rfl)
  exact ⟨by rfl, by rfl, by rfl, h.1, h.2⟩

theorem extract_projects_requested_fields_witness :
    splitFrontmatter ["---", "title: T", "author: A", "date: D", "---", "Body"] =
      (some ["title: T", "author: A", "date: D"], ["Body"]) ∧
    (fun _ => Except.ok (Yaml.map
        [("title", Yaml.str "T"), ("author", Yaml.str "A"),
          ("date", Yaml.str "D")]) :
      List String → Except String Yaml) ["title: T", "author: A", "date: D"] =
      Except.ok (Yaml.map
        [("title", Yaml.str "T"), ("author", Yaml.str "A"),
          ("date", Yaml.str "D")]) ∧
    (["title", "author"] : List String) ≠ [] ∧
    extract
        (fun _ => Except.ok (Yaml.map
          [("title", Yaml.str "T"), ("author", Yaml.str "A"),
            ("date", Yaml.str "D")]))
        ["---", "title: T", "author: A", "date: D", "---", "Body"]
        (some ["title", "author"]) =
      Except.ok (some (Yaml.map
        (filterFields
          [("title", Yaml.str "T"), ("author", Yaml.str "A"),
            ("date", Yaml.str "D")]
          ["title", "author"]))) ∧
    filterFields
        [("title", Yaml.str "T"), ("author", Yaml.str "A"),
          ("date", Yaml.str "D")] ["title", "author"] =
      [("title", Yaml.str "T"), ("author", Yaml.str "A")] := by
  have h := extract_projects_requested_fields
    (fun _ => Except.ok (Yaml.map
      [("title", Yaml.str "T"), ("author", Yaml.str "A"),
        ("date", Yaml.str "D")]))
    ["---", "title: T", "author: A", "date: D", "---", "Body"]
    ["title: T", "author: A", "date: D"] ["Body"]
    [("title", Yaml.str "T"), ("author", Yaml.str "A"), ("date", Yaml.str "D")]
    ["title", "author"] (by rfl) (by rfl) (by simp)
  exact ⟨by rfl, by rfl, by simp, h.1, by rfl⟩

theorem falsy_frontmatter_reads_as_empty_mapping_witness :
    splitFrontmatter ["---", "---", "Body"] = (some [], ["Body"]) ∧
    Yaml.null ∈ [Yaml.null, Yaml.bool false, Yaml.num 0, Yaml.str ""] ∧
    (fun _ => Except.ok Yaml.null : List String → Except String Yaml) [] =
      Except.ok Yaml.null ∧
    extract (fun _ => Except.ok Yaml.null) ["---", "---", "Body"] none =
      Except.ok (some (Yaml.map [])) ∧
    getCurrentFrontmatter (fun _ => Except.ok Yaml.null)
        ["---", "---", "Body"] = Except.ok (some (Yaml.map [])) := by
  have h := falsy_frontmatter_reads_as_empty_mapping
    (fun _ => Except.ok Yaml.null) ["---", "---", "Body"] [] ["Body"] Yaml.null
    (by rfl) (List.Mem.head _) (by rfl)
  exact ⟨by rfl, List.Mem.head _, by rfl, h.1, h.2⟩

/-! ## Glob matching (`GenerativeTags.matchesGlob`)

`matchesGlob(filename, pattern)` builds a regex source string by three
global replaces — `.` becomes `\.`, `*` becomes `.*`, `?` becomes `.` — and
tests `new RegExp('^' + regexPattern + '$').test(filename)`.

The external `RegExp` engine is modelled by a regex abstract syntax `RE`
with standard semantics (`RE.Matches`, decided by Brzozowski derivatives),
plus a compiler `compileFactors` for the ECMAScript fragment the translated
strings exercise: literal characters, the `\.` escape, `.` (any character
except a line terminator), the postfix quantifiers `*`, `+`, `?` (a
quantifier with nothing to repeat, or doubled quantifiers such as `*+`, are
the engine's `SyntaxError`).  Constructs the translation never produces
from the claims' patterns — groups, alternation, character classes, brace
quantifiers, anchors mid-pattern, other escapes — are outside the modelled
fragment and the compiler reports them as `none` (unmodelled / error); no
theorem below touches them.  The `^`/`$` anchoring of the source is the
full-match semantics of `RE.Matches`. -/

/-- Regex abstract syntax: empty language, empty string, literal character,
`.` (any non-line-terminator), concatenation, alternation, Kleene star. -/
inductive RE where
  | emp : RE
  | eps : RE
  | lit (c : Char) : RE
  | dot : RE
  | cat (r s : RE) : RE
  | alt (r s : RE) : RE
  | star (r : RE) : RE

/-- ECMAScript line terminators, which `.` does not match. -/
def isLineTerminator (c : Char) : Bool :=
  c = '\n' || c = '\r' || c = ' ' || c = ' '

/-- Does the regex match the empty string? -/
def nullable : RE → Bool
  | RE.emp => false
  | RE.eps => true
  | RE.lit _ => false
  | RE.dot => false
  | RE.cat r s => nullable r && nullable s
  | RE.alt r s => nullable r || nullable s
  | RE.star _ => true

/-- Brzozowski derivative of a regex with respect to one character. -/
def RE.deriv : RE → Char → RE
  | RE.emp, _ => RE.emp
  | RE.eps, _ => RE.emp
  | RE.lit c, a => if a = c then RE.eps else RE.emp
  | RE.dot, a => if isLineTerminator a then RE.emp else RE.eps
  | RE.cat r s, a =>
    if nullable r then RE.alt (RE.cat (RE.deriv r a) s) (RE.deriv s a)
    else RE.cat (RE.deriv r a) s
  | RE.alt r s, a => RE.alt (RE.deriv r a) (RE.deriv s a)
  | RE.star r, a => RE.cat (RE.deriv r a) (RE.star r)

/-- Full-match test by repeated derivatives. -/
def rmatch : RE → List Char → Bool
  | r, [] => nullable r
  | r, a :: as => rmatch (RE.deriv r a) as

/-- Language of a regex (full match). -/
inductive RE.Matches : RE → List Char → Prop where
  | eps : RE.Matches RE.eps []
  | lit (c : Char) : RE.Matches (RE.lit c) [c]
  | dot (c : Char) (h : isLineTerminator c = false) : RE.Matches RE.dot [c]
  | cat {r s : RE} {xs ys : List Char} : RE.Matches r xs → RE.Matches s ys →
      RE.Matches (RE.cat r s) (xs ++ ys)
  | altL {r s : RE} {xs : List Char} : RE.Matches r xs →
      RE.Matches (RE.alt r s) xs
  | altR {r s : RE} {xs : List Char} : RE.Matches s xs →
      RE.Matches (RE.alt r s) xs
  | starNil {r : RE} : RE.Matches (RE.star r) []
  | starCons {r : RE} {xs ys : List Char} : RE.Matches r xs →
      RE.Matches (RE.star r) ys → RE.Matches (RE.star r) (xs ++ ys)

theorem matches_eps_iff (cs : List Char) : RE.Matches RE.eps cs ↔ cs = [] := by
  constructor
  · intro h; cases h; rfl
  · rintro rfl; exact RE.Matches.eps

theorem matches_lit_iff (c : Char) (cs : List Char) :
    RE.Matches (RE.lit c) cs ↔ cs = [c] := by
  constructor
  · intro h; cases h; rfl
  · rintro rfl; exact RE.Matches.lit c

theorem matches_dot_iff (cs : List Char) :
    RE.Matches RE.dot cs ↔ ∃ c, cs = [c] ∧ isLineTerminator c = false := by
  constructor
  · intro h
    cases h with
    | dot c hc => exact ⟨c, rfl, hc⟩
  · rintro ⟨c, rfl, hc⟩
    exact RE.Matches.dot c hc

theorem matches_cat_iff (r s : RE) (cs : List Char) :
    RE.Matches (RE.cat r s) cs ↔
      ∃ xs ys, cs = xs ++ ys ∧ RE.Matches r xs ∧ RE.Matches s ys := by
  constructor
  · intro h
    cases h with
    | cat hr hs => exact ⟨_, _, rfl, hr, hs⟩
  · rintro ⟨xs, ys, rfl, hr, hs⟩
    exact RE.Matches.cat hr hs

theorem matches_alt_iff (r s : RE) (cs : List Char) :
    RE.Matches (RE.alt r s) cs ↔ RE.Matches r cs ∨ RE.Matches s cs := by
  constructor
  · intro h
    cases h with
    | altL h => exact Or.inl h
    | altR h => exact Or.inr h
  · rintro (h | h)
    · exact RE.Matches.altL h
    · exact RE.Matches.altR h

theorem matches_emp_false (cs : List Char) : ¬RE.Matches RE.emp cs := by
  intro h; cases h

theorem nullable_iff (r : RE) : nullable r = true ↔ RE.Matches r [] := by
  induction r with
  | emp =>
    constructor
    · intro h; simp [nullable] at h
    · intro h; cases h
  | eps =>
    constructor
    · intro _; exact RE.Matches.eps
    · intro _; rfl
  | lit c =>
    constructor
    · intro h; simp [nullable] at h
    · intro h; cases h
  | dot =>
    constructor
    · intro h; simp [nullable] at h
    · intro h; cases h
  | cat r s ihr ihs =>
    constructor
    · intro h
      simp only [nullable, Bool.and_eq_true] at h
      exact RE.Matches.cat (ihr.mp h.1) (ihs.mp h.2)
    · intro h
      rw [matches_cat_iff] at h
      obtain ⟨xs, ys, hnil, hr, hs⟩ := h
      obtain ⟨rfl, rfl⟩ := List.append_eq_nil.mp hnil.symm
      simp only [nullable, Bool.and_eq_true]
      exact ⟨ihr.mpr hr, ihs.mpr hs⟩
  | alt r s ihr ihs =>
    constructor
    · intro h
      simp only [nullable, Bool.or_eq_true] at h
      rcases h with h | h
      · exact RE.Matches.altL (ihr.mp h)
      · exact RE.Matches.altR (ihs.mp h)
    · intro h
      simp only [nullable, Bool.or_eq_true]
      cases h with
      | altL h => exact Or.inl (ihr.mpr h)
      | altR h => exact Or.inr (ihs.mpr h)
  | star r ih =>
    constructor
    · intro _; exact RE.Matches.starNil
    · intro _; rfl

theorem star_cases_aux {re : RE} {cs : List Char} (h : RE.Matches re cs) :
    ∀ r, re = RE.star r →
      cs = [] ∨ ∃ xs ys, cs = xs ++ ys ∧ xs ≠ [] ∧ RE.Matches r xs ∧
        RE.Matches (RE.star r) ys := by
  induction h with
  | eps => exact fun r hr => RE.noConfusion hr
  | lit c => exact fun r hr => RE.noConfusion hr
  | dot c hc => exact fun r hr => RE.noConfusion hr
  | cat hr hs ihr ihs => exact fun r hr => RE.noConfusion hr
  | altL h ih => exact fun r hr => RE.noConfusion hr
  | altR h ih => exact fun r hr => RE.noConfusion hr
  | starNil => exact fun r _ => Or.inl rfl
  | starCons h1 h2 ih1 ih2 =>
    rename_i r0 xs ys
    intro r hr
    obtain rfl := RE.star.inj hr
    cases hxs : xs with
    | nil =>
      subst hxs
      simpa using ih2 r0 rfl
    | cons a xs' =>
      subst hxs
      exact Or.inr ⟨a :: xs', ys, rfl, by simp, h1, h2⟩

theorem star_cases {r : RE} {cs : List Char} (h : RE.Matches (RE.star r) cs) :
    cs = [] ∨ ∃ xs ys, cs = xs ++ ys ∧ xs ≠ [] ∧ RE.Matches r xs ∧
      RE.Matches (RE.star r) ys :=
  star_cases_aux h r rfl

theorem deriv_matches (r : RE) (a : Char) (cs : List Char) :
    RE.Matches (RE.deriv r a) cs ↔ RE.Matches r (a :: cs) := by
  induction r generalizing cs with
  | emp =>
    constructor
    · intro h; exact absurd h (matches_emp_false cs)
    · intro h; cases h
  | eps =>
    constructor
    · intro h; exact absurd h (matches_emp_false cs)
    · intro h; cases h
  | lit c =>
    show RE.Matches (if a = c then RE.eps else RE.emp) cs ↔ _
    by_cases hac : a = c
    · subst hac
      rw [if_pos rfl, matches_eps_iff, matches_lit_iff]
      simp
    · rw [if_neg hac]
      constructor
      · intro h; exact absurd h (matches_emp_false cs)
      · intro h
        rw [matches_lit_iff] at h
        exact absurd (List.cons_eq_cons.mp h).1 hac
  | dot =>
    show RE.Matches (if isLineTerminator a then RE.emp else RE.eps) cs ↔ _
    by_cases hlt : isLineTerminator a
    · rw [if_pos hlt]
      constructor
      · intro h; exact absurd h (matches_emp_false cs)
      · intro h
        rw [matches_dot_iff] at h
        obtain ⟨c, hc, hok⟩ := h
        obtain ⟨rfl, -⟩ := List.cons_eq_cons.mp hc
        rw [hlt] at hok
        cases hok
    · rw [if_neg hlt, matches_eps_iff, matches_dot_iff]
      constructor
      · rintro rfl
        exact ⟨a, rfl, Bool.not_eq_true _ ▸ hlt⟩
      · rintro ⟨c, hc, -⟩
        exact (List.cons_eq_cons.mp hc).2
  | cat r s ihr ihs =>
    show RE.Matches (if nullable r then _ else _) cs ↔ _
    by_cases hn : nullable r
    · rw [if_pos hn, matches_alt_iff, matches_cat_iff, matches_cat_iff]
      constructor
      · rintro (⟨xs, ys, rfl, hr, hs⟩ | hds)
        · exact ⟨a :: xs, ys, by simp, (ihr _).mp hr, hs⟩
        · exact ⟨[], a :: cs, by simp, (nullable_iff r).mp hn, (ihs _).mp hds⟩
      · rintro ⟨xs, ys, hsplit, hr, hs⟩
        rcases xs with _ | ⟨x, xs'⟩
        · right
          simp only [List.nil_append] at hsplit
          subst hsplit
          exact (ihs _).mpr hs
        · left
          rw [List.cons_append] at hsplit
          obtain ⟨rfl, rfl⟩ := List.cons_eq_cons.mp hsplit
          exact ⟨xs', ys, rfl, (ihr _).mpr hr, hs⟩
    · rw [if_neg hn, matches_cat_iff, matches_cat_iff]
      constructor
      · rintro ⟨xs, ys, rfl, hr, hs⟩
        exact ⟨a :: xs, ys, by simp, (ihr _).mp hr, hs⟩
      · rintro ⟨xs, ys, hsplit, hr, hs⟩
        rcases xs with _ | ⟨x, xs'⟩
        · exact absurd ((nullable_iff r).mpr hr) hn
        · rw [List.cons_append] at hsplit
          obtain ⟨rfl, rfl⟩ := List.cons_eq_cons.mp hsplit
          exact ⟨xs', ys, rfl, (ihr _).mpr hr, hs⟩
  | alt r s ihr ihs =>
    show RE.Matches (RE.alt (RE.deriv r a) (RE.deriv s a)) cs ↔ _
    rw [matches_alt_iff, matches_alt_iff, ihr, ihs]
  | star r ih =>
    show RE.Matches (RE.cat (RE.deriv r a) (RE.star r)) cs ↔ _
    rw [matches_cat_iff]
    constructor
    · rintro ⟨xs, ys, rfl, hr, hs⟩
      have := RE.Matches.starCons ((ih _).mp hr) hs
      simpa using this

    · intro h
      rcases star_cases h with hnil | ⟨xs, ys, hsplit, hne, hr, hs⟩
      · exact absurd hnil (by simp)
      · rcases xs with _ | ⟨x, xs'⟩
        · exact absurd rfl hne
        · rw [List.cons_append] at hsplit
          obtain ⟨rfl, rfl⟩ := List.cons_eq_cons.mp hsplit
          exact ⟨xs', ys, rfl, (ih _).mpr hr, hs⟩

theorem rmatch_iff (r : RE) (cs : List Char) :
    rmatch r cs = true ↔ RE.Matches r cs := by
  induction cs generalizing r with
  | nil => exact nullable_iff r
  | cons a cs ih =>
    show rmatch (RE.deriv r a) cs = true ↔ _
    rw [ih (RE.deriv r a)]
    exact deriv_matches r a cs

theorem star_dot_aux {re : RE} {cs : List Char} (h : RE.Matches re cs) :
    re = RE.star RE.dot → ∀ c ∈ cs, isLineTerminator c = false := by
  induction h with
  | eps => exact fun hr => RE.noConfusion hr
  | lit c => exact fun hr => RE.noConfusion hr
  | dot c hc => exact fun hr => RE.noConfusion hr
  | cat hr hs ihr ihs => exact fun hr => RE.noConfusion hr
  | altL h ih => exact fun hr => RE.noConfusion hr
  | altR h ih => exact fun hr => RE.noConfusion hr
  | starNil => intro _ c hc; cases hc
  | starCons h1 h2 ih1 ih2 =>
    intro hr c hc
    obtain rfl := RE.star.inj hr
    rcases List.mem_append.mp hc with hc | hc
    · rw [matches_dot_iff] at h1
      obtain ⟨c', rfl, hok⟩ := h1
      rw [List.mem_singleton.mp hc]
      exact hok
    · exact ih2 rfl c hc

theorem star_dot_matches_iff (zs : List Char) :
    RE.Matches (RE.star RE.dot) zs ↔
      ∀ c ∈ zs, isLineTerminator c = false := by
  constructor
  · intro h
    exact star_dot_aux h rfl
  · intro h
    induction zs with
    | nil => exact RE.Matches.starNil
    | cons a zs' ih =>
      have h1 : RE.Matches RE.dot [a] := RE.Matches.dot a (h a (by simp))
      have h2 : RE.Matches (RE.star RE.dot) zs' :=
        ih (fun c hc => h c (by simp [hc]))
      simpa using RE.Matches.starCons h1 h2

/-- Regex source characters with special (non-literal) meaning in
ECMAScript patterns; a pattern character outside this list matches itself. -/
def reSpecials : List Char :=
  ['\\', '^', '$', '.', '|', '?', '*', '+', '(', ')', '[', ']', '{', '}']

/-- The postfix quantifier characters. -/
def isQuantChar (c : Char) : Bool := c = '*' || c = '+' || c = '?'

/-- Apply a postfix quantifier to an atom: `*` = zero or more, `+` = one or
more (encoded as the atom followed by its star), `?` = zero or one. -/
def applyQuant (q : Char) (r : RE) : RE :=
  if q = '*' then RE.star r
  else if q = '+' then RE.cat r (RE.star r)
  else RE.alt r RE.eps

/-- Lexer token: an atom regex, or a pending quantifier character. -/
inductive Tok where
  | atom (r : RE) : Tok
  | quant (q : Char) : Tok

/-- Lex a regex source string (the part between the `^`/`$` anchors) into
atoms and quantifiers, covering the fragment the glob translation can
produce: `\.` (the only escape the translation emits), `.`, quantifier
characters, and literal characters.  Other special characters (groups,
alternation, classes, braces, anchors, other escapes) are outside the
modelled fragment: `none`. -/
def lexRegexAux : Bool → List Char → Option (List Tok)
  | false, [] => some []
  | true, [] => none
  | true, c :: rest =>
    if c = '.' then (lexRegexAux false rest).map (Tok.atom (RE.lit '.') :: ·)
    else none
  | false, c :: rest =>
    if c = '\\' then lexRegexAux true rest
    else if c = '.' then (lexRegexAux false rest).map (Tok.atom RE.dot :: ·)
    else if isQuantChar c then (lexRegexAux false rest).map (Tok.quant c :: ·)
    else if c ∈ reSpecials then none
    else (lexRegexAux false rest).map (Tok.atom (RE.lit c) :: ·)

/-- Entry point of the lexer (no escape pending). -/
def lexRegex (s : List Char) : Option (List Tok) :=
  lexRegexAux false s

/-- Assemble lexed tokens into the regex's factors: each atom optionally
followed by one quantifier.  A quantifier with nothing to repeat, or a
quantifier directly following a quantified factor (e.g. `*+`), is the
engine's `SyntaxError`: `none`. -/
def parseFactors : List Tok → Option (List RE)
  | [] => some []
  | Tok.quant _ :: _ => none
  | Tok.atom _ :: Tok.quant _ :: Tok.quant _ :: _ => none
  | Tok.atom r :: Tok.quant q :: rest =>
    (parseFactors rest).map (applyQuant q r :: ·)
  | Tok.atom r :: rest => (parseFactors rest).map (r :: ·)

/-- Concatenation of a factor list (the empty list is the empty string,
matching the `^$` of an empty translated pattern). -/
def catList : List RE → RE
  | [] => RE.eps
  | r :: rs => RE.cat r (catList rs)

/-- One character of the source's replace chain
`.replace(/\./g,'\\.').replace(/\*/g,'.*').replace(/\?/g,'.')`.  The three
global replaces touch disjoint characters and the text each inserts is not
rewritten again by the later replaces (`\.` contains no `*`/`?`; `.*` and
`.` are inserted after the dot-escaping pass), so the chain equals this
single per-character translation. -/
def globCharToRegexChars (c : Char) : List Char :=
  if c = '.' then ['\\', '.']
  else if c = '*' then ['.', '*']
  else if c = '?' then ['.']
  else [c]

/-- The full translated regex source for a glob pattern. -/
def globToRegexChars (p : List Char) : List Char :=
  p.flatMap globCharToRegexChars

/-- `matchesGlob(filename, pattern)` of the source: translate the pattern,
compile it with the regex engine and full-match the filename against
`^pattern$`.  `none` means `new RegExp` threw (or the pattern left the
modelled fragment); `some b` is the value of `.test(filename)`. -/
def matchesGlob (filename pattern : List Char) : Option Bool :=
  ((lexRegex (globToRegexChars pattern)).bind parseFactors).map
    (fun fs => rmatch (catList fs) filename)

/-- The glob semantics stated by the specification (this definition follows
the spec's words, for comparison with `matchesGlob`): `*` matches any run
of characters — i.e. the rest of the pattern matches some suffix of the
text — `?` matches any single character, and every other pattern character
matches only itself. -/
def globSpecMatch : List Char → List Char → Bool
  | [], cs => cs.isEmpty
  | '*' :: ps, cs => cs.tails.any (fun suffix => globSpecMatch ps suffix)
  | '?' :: ps, cs =>
    match cs with
    | [] => false
    | _ :: cs' => globSpecMatch ps cs'
  | q :: ps, cs =>
    match cs with
    | [] => false
    | c :: cs' => (q = c) && globSpecMatch ps cs'

/-- Glob pattern characters that stay literal through the translation: all
characters except the regex metacharacters that `matchesGlob` leaves
unescaped (`.`, `*` and `?` are fine — the translation handles them). -/
def safeGlobChar (c : Char) : Bool :=
  !(c ∈ ['\\', '^', '$', '|', '+', '(', ')', '[', ']', '{', '}'])

/-- The factor regex a single glob character denotes after translation and
compilation: `*` is any run of (non-line-terminator) characters, `?` is any
single such character, anything else is itself. -/
def globFactor (c : Char) : RE :=
  if c = '*' then RE.star RE.dot
  else if c = '?' then RE.dot
  else RE.lit c

/-- The tokens the lexer produces for one translated glob character. -/
def globToks (c : Char) : List Tok :=
  if c = '.' then [Tok.atom (RE.lit '.')]
  else if c = '*' then [Tok.atom RE.dot, Tok.quant '*']
  else if c = '?' then [Tok.atom RE.dot]
  else [Tok.atom (RE.lit c)]

theorem safeGlobChar_split (c : Char) (hc : safeGlobChar c = true) :
    c ≠ '\\' ∧ c ≠ '^' ∧ c ≠ '$' ∧ c ≠ '|' ∧ c ≠ '+' ∧ c ≠ '(' ∧ c ≠ ')' ∧
      c ≠ '[' ∧ c ≠ ']' ∧ c ≠ '{' ∧ c ≠ '}' := by
  simp only [safeGlobChar, List.mem_cons, List.not_mem_nil, or_false,
    Bool.not_eq_true', decide_eq_false_iff_not] at hc
  push_neg at hc
  exact hc

theorem lexRegex_backslash_dot (rest : List Char) :
    lexRegex ('\\' :: '.' :: rest) =
      (lexRegex rest).map (Tok.atom (RE.lit '.') :: ·) := rfl

theorem lexRegex_dot (rest : List Char) :
    lexRegex ('.' :: rest) = (lexRegex rest).map (Tok.atom RE.dot :: ·) := rfl

theorem lexRegex_star (rest : List Char) :
    lexRegex ('*' :: rest) = (lexRegex rest).map (Tok.quant '*' :: ·) := rfl

theorem lexRegex_lit (c : Char) (rest : List Char) (h1 : c ≠ '\\')
    (h2 : c ≠ '.') (h3 : isQuantChar c = false) (h4 : ¬c ∈ reSpecials) :
    lexRegex (c :: rest) = (lexRegex rest).map (Tok.atom (RE.lit c) :: ·) := by
  show lexRegexAux false (c :: rest) = _
  rw [lexRegexAux]
  rw [if_neg h1, if_neg h2, if_neg (by simp [h3]), if_neg h4]
  rfl

theorem lexRegex_globToRegexChars (p : List Char)
    (hp : ∀ c ∈ p, safeGlobChar c = true) :
    lexRegex (globToRegexChars p) = some (p.flatMap globToks) := by
  induction p with
  | nil => rfl
  | cons c p' ih =>
    have hc : safeGlobChar c = true := hp c (by simp)
    obtain ⟨h1, h2, h3, h4, h5, h6, h7, h8, h9, h10, h11⟩ :=
      safeGlobChar_split c hc
    have ih' := ih (fun d hd => hp d (by simp [hd]))
    show lexRegex (globCharToRegexChars c ++ globToRegexChars p') =
      some (globToks c ++ p'.flatMap globToks)
    by_cases hdot : c = '.'
    · subst hdot
      rw [show globCharToRegexChars '.' = ['\\', '.'] from rfl]
      rw [List.cons_append, List.cons_append, List.nil_append,
        lexRegex_backslash_dot, ih']
      rw [show globToks '.' = [Tok.atom (RE.lit '.')] from rfl]
      rfl
    · by_cases hstar : c = '*'
      · subst hstar
        rw [show globCharToRegexChars '*' = ['.', '*'] from rfl]
        rw [List.cons_append, List.cons_append, List.nil_append, lexRegex_dot,
          lexRegex_star, ih']
        rw [show globToks '*' = [Tok.atom RE.dot, Tok.quant '*'] from rfl]
        rfl
      · by_cases hque : c = '?'
        · subst hque
          rw [show globCharToRegexChars '?' = ['.'] from rfl]
          rw [List.cons_append, List.nil_append, lexRegex_dot, ih']
          rw [show globToks '?' = [Tok.atom RE.dot] from rfl]
          rfl
        · have hq : isQuantChar c = false := by
            simp [isQuantChar, hstar, h5, hque]
          have hsp : ¬c ∈ reSpecials := by
            simp [reSpecials, h1, h2, h3, hdot, h4, hque, hstar, h5, h6, h7,
              h8, h9, h10, h11]
          have htok : globToks c = [Tok.atom (RE.lit c)] := by
            simp [globToks, hdot, hstar, hque]
          rw [show globCharToRegexChars c = [c] from by
            simp [globCharToRegexChars, hdot, hstar, hque]]
          rw [List.cons_append, List.nil_append,
            lexRegex_lit c _ h1 hdot hq hsp, ih', htok]
          rfl

theorem flatMap_globToks_shape (p : List Char) :
    p.flatMap globToks = [] ∨
      ∃ r ts, p.flatMap globToks = Tok.atom r :: ts := by
  cases p with
  | nil => exact Or.inl rfl
  | cons c p' =>
    right
    show ∃ r ts, globToks c ++ p'.flatMap globToks = Tok.atom r :: ts
    by_cases hdot : c = '.'
    · exact ⟨RE.lit '.', p'.flatMap globToks, by simp [globToks, hdot]⟩
    · by_cases hstar : c = '*'
      · exact ⟨RE.dot, Tok.quant '*' :: p'.flatMap globToks,
          by simp [globToks, hdot, hstar]⟩
      · by_cases hque : c = '?'
        · exact ⟨RE.dot, p'.flatMap globToks,
            by simp [globToks, hdot, hstar, hque]⟩
        · exact ⟨RE.lit c, p'.flatMap globToks,
            by simp [globToks, hdot, hstar, hque]⟩

theorem parseFactors_atom_quant (r : RE) (q : Char) (rest : List Tok)
    (h : rest = [] ∨ ∃ r' ts, rest = Tok.atom r' :: ts) :
    parseFactors (Tok.atom r :: Tok.quant q :: rest) =
      (parseFactors rest).map (applyQuant q r :: ·) := by
  rcases h with rfl | ⟨r', ts, rfl⟩ <;> rfl

theorem parseFactors_atom_noquant (r : RE) (rest : List Tok)
    (h : rest = [] ∨ ∃ r' ts, rest = Tok.atom r' :: ts) :
    parseFactors (Tok.atom r :: rest) = (parseFactors rest).map (r :: ·) := by
  rcases h with rfl | ⟨r', ts, rfl⟩ <;> rfl

theorem parseFactors_globToks (p : List Char)
    (hp : ∀ c ∈ p, safeGlobChar c = true) :
    parseFactors (p.flatMap globToks) = some (p.map globFactor) := by
  induction p with
  | nil => rfl
  | cons c p' ih =>
    have ih' := ih (fun d hd => hp d (by simp [hd]))
    have hshape := flatMap_globToks_shape p'
    show parseFactors (globToks c ++ p'.flatMap globToks) =
      some (globFactor c :: List.map globFactor p')
    by_cases hstar : c = '*'
    · subst hstar
      rw [show globToks '*' = [Tok.atom RE.dot, Tok.quant '*'] from rfl]
      rw [List.cons_append, List.cons_append, List.nil_append,
        parseFactors_atom_quant _ _ _ hshape, ih']
      rw [show applyQuant '*' RE.dot = RE.star RE.dot from rfl,
        show globFactor '*' = RE.star RE.dot from rfl]
      rfl
    · by_cases hdot : c = '.'
      · subst hdot
        rw [show globToks '.' = [Tok.atom (RE.lit '.')] from rfl]
        rw [List.cons_append, List.nil_append,
          parseFactors_atom_noquant _ _ hshape, ih']
        rw [show globFactor '.' = RE.lit '.' from rfl]
        rfl
      · by_cases hque : c = '?'
        · subst hque
          rw [show globToks '?' = [Tok.atom RE.dot] from rfl]
          rw [List.cons_append, List.nil_append,
            parseFactors_atom_noquant _ _ hshape, ih']
          rw [show globFactor '?' = RE.dot from rfl]
          rfl
        · have htok : globToks c = [Tok.atom (RE.lit c)] := by
            simp [globToks, hdot, hstar, hque]
          have hfac : globFactor c = RE.lit c := by
            simp [globFactor, hstar, hque]
          rw [htok, List.cons_append, List.nil_append,
            parseFactors_atom_noquant _ _ hshape, ih', hfac]
          rfl

theorem globSpec_iff_matches (p : List Char) :
    ∀ cs : List Char, (∀ c ∈ cs, isLineTerminator c = false) →
      (globSpecMatch p cs = true ↔
        RE.Matches (catList (p.map globFactor)) cs) := by
  induction p with
  | nil =>
    intro cs hcs
    show cs.isEmpty = true ↔ RE.Matches RE.eps cs
    rw [matches_eps_iff]
    cases cs <;> simp
  | cons q ps ih =>
    intro cs hcs
    by_cases hq : q = '*'
    · subst hq
      show (cs.tails.any fun suffix => globSpecMatch ps suffix) = true ↔
        RE.Matches (RE.cat (RE.star RE.dot) (catList (ps.map globFactor))) cs
      rw [matches_cat_iff, List.any_eq_true]
      constructor
      · rintro ⟨suffix, hmem, hsfx⟩
        obtain ⟨xs, rfl⟩ := (List.mem_tails _ _).mp hmem
        refine ⟨xs, suffix, rfl, ?_, ?_⟩
        · rw [star_dot_matches_iff]
          exact fun c hc => hcs c (List.mem_append.mpr (Or.inl hc))
        · exact (ih suffix
            (fun c hc => hcs c (List.mem_append.mpr (Or.inr hc)))).mp hsfx
      · rintro ⟨xs, ys, rfl, hstar, hS⟩
        refine ⟨ys, (List.mem_tails _ _).mpr ⟨xs, rfl⟩, ?_⟩
        exact (ih ys
          (fun c hc => hcs c (List.mem_append.mpr (Or.inr hc)))).mpr hS
    · cases cs with
      | nil =>
        have hlhs : globSpecMatch (q :: ps) [] = false := by
          by_cases hq2 : q = '?'
          · subst hq2; rfl
          · simp [globSpecMatch, hq, hq2]
        rw [hlhs]
        constructor
        · intro h; simp at h
        · intro h
          exfalso
          rw [show catList ((q :: ps).map globFactor) =
            RE.cat (globFactor q) (catList (ps.map globFactor)) from rfl,
            matches_cat_iff] at h
          obtain ⟨xs, ys, hnil, h1, h2⟩ := h
          obtain ⟨rfl, rfl⟩ := List.append_eq_nil.mp hnil.symm
          by_cases hq2 : q = '?'
          · subst hq2
            rw [show globFactor '?' = RE.dot from rfl, matches_dot_iff] at h1
            obtain ⟨c, hc, -⟩ := h1
            simp at hc
          · have hfac : globFactor q = RE.lit q := by
              simp [globFactor, hq, hq2]
            rw [hfac, matches_lit_iff] at h1
            simp at h1
      | cons c cs' =>
        have hcs' : ∀ d ∈ cs', isLineTerminator d = false :=
          fun d hd => hcs d (by simp [hd])
        by_cases hq2 : q = '?'
        · subst hq2
          show globSpecMatch ('?' :: ps) (c :: cs') = true ↔
            RE.Matches (RE.cat RE.dot (catList (ps.map globFactor))) (c :: cs')
          rw [show globSpecMatch ('?' :: ps) (c :: cs') =
            globSpecMatch ps cs' from rfl]
          rw [matches_cat_iff]
          constructor
          · intro h
            exact ⟨[c], cs', rfl, RE.Matches.dot c (hcs c (by simp)),
              (ih cs' hcs').mp h⟩
          · rintro ⟨xs, ys, hsplit, hdot, hS⟩
            rw [matches_dot_iff] at hdot
            obtain ⟨c0, rfl, -⟩ := hdot
            rw [List.singleton_append] at hsplit
            obtain ⟨rfl, rfl⟩ := List.cons_eq_cons.mp hsplit
            exact (ih cs' hcs').mpr hS
        · have hlhs : globSpecMatch (q :: ps) (c :: cs') =
              (decide (q = c) && globSpecMatch ps cs') := by
            simp [globSpecMatch, hq, hq2]
          have hfac : globFactor q = RE.lit q := by
            simp [globFactor, hq, hq2]
          rw [hlhs, Bool.and_eq_true,
            show catList ((q :: ps).map globFactor) =
              RE.cat (globFactor q) (catList (ps.map globFactor)) from rfl,
            hfac, matches_cat_iff]
          constructor
          · rintro ⟨hqc, h⟩
            have hceq : q = c := by simpa using hqc
            subst hceq
            exact ⟨[q], cs', rfl, RE.Matches.lit q, (ih cs' hcs').mp h⟩
          · rintro ⟨xs, ys, hsplit, hlit, hS⟩
            rw [matches_lit_iff] at hlit
            subst hlit
            rw [List.singleton_append] at hsplit
            obtain ⟨hcq, rfl⟩ := List.cons_eq_cons.mp hsplit
            exact ⟨by simp [hcq], (ih cs' hcs').mpr hS⟩

/-- C2 counterexample: the claimed semantics — every character other than
`*` and `?` matches only itself literally — is false on the code.  The
translation escapes only `.`, so `+` keeps its regex meaning: the pattern
`a+b` accepts the filename `aab` (which differs from the pattern) and
rejects the filename `a+b` (which is the pattern itself, so literal
matching would accept it). -/
theorem matchesGlob_plus_not_literal :
    matchesGlob ['a', 'a', 'b'] ['a', '+', 'b'] = some true ∧
    globSpecMatch ['a', '+', 'b'] ['a', 'a', 'b'] = false ∧
    matchesGlob ['a', '+', 'b'] ['a', '+', 'b'] = some false ∧
    globSpecMatch ['a', '+', 'b'] ['a', '+', 'b'] = true := by
  refine ⟨?_, ?_, ?_, ?_⟩ <;> decide

/-- C2 (amended): the batch matcher agrees with the claimed glob semantics
— `*` any run, `?` any single character, everything else literal — for
every pattern containing none of the regex metacharacters the translation
leaves unescaped (`\`, `^`, `$`, `|`, `+`, `(`, `)`, `[`, `]`, `{`, `}`;
only `.` is escaped, and `*`/`?` are the glob wildcards) and every filename
without line-terminator characters (the translated `.` does not match line
terminators). -/
theorem matchesGlob_glob_semantics_on_safe_patterns
    (filename pattern : List Char)
    (hpat : ∀ c ∈ pattern, safeGlobChar c = true)
    (hfn : ∀ c ∈ filename, isLineTerminator c = false) :
    matchesGlob filename pattern = some (globSpecMatch pattern filename) := by
  unfold matchesGlob
  rw [lexRegex_globToRegexChars pattern hpat]
  show (parseFactors (pattern.flatMap globToks)).map
      (fun fs => rmatch (catList fs) filename) = _
  rw [parseFactors_globToks pattern hpat]
  show some (rmatch (catList (pattern.map globFactor)) filename) = _
  congr 1
  have h1 := rmatch_iff (catList (pattern.map globFactor)) filename
  have h2 := globSpec_iff_matches pattern filename hfn
  cases hb : rmatch (catList (pattern.map globFactor)) filename with
  | false =>
    cases hg : globSpecMatch pattern filename with
    | false => rfl
    | true => exact absurd (h1.mpr (h2.mp hg)) (by rw [hb]; simp)
  | true => exact (h2.mpr (h1.mp hb)).symm

theorem matchesGlob_glob_semantics_witness :
    (∀ c ∈ (['*', '.', 'm', 'd'] : List Char), safeGlobChar c = true) ∧
    (∀ c ∈ (['p', 'o', 's', 't', '.', 'm', 'd'] : List Char),
      isLineTerminator c = false) ∧
    matchesGlob ['p', 'o', 's', 't', '.', 'm', 'd'] ['*', '.', 'm', 'd'] =
      some (globSpecMatch ['*', '.', 'm', 'd']
        ['p', 'o', 's', 't', '.', 'm', 'd']) :=
  ⟨by decide, by decide,
    matchesGlob_glob_semantics_on_safe_patterns _ _ (by decide) (by decide)⟩
